import Mathlib

/-!
Verification of the OpenBSD RunCom service controller
(`internal/home/service_openbsd.go` and `internal/home/svclog_openbsd.go`).

The Go code is shallowly embedded: file contents are `List Char`, the
filesystem and subprocess effects are explicit state or oracle parameters,
and the Go standard-library helpers the code calls (`strings.Split` with a
one-character separator, `strings.TrimSpace`, `strings.Index`,
`bufio.Scanner` with `ScanLines`, `filepath.Join`) are given executable Lean
definitions mirroring their documented behaviour on the inputs at play.
-/

namespace OpenBSDSvc

/-- Go `unicode.IsSpace` restricted to the ASCII space characters
(space, tab, newline, vertical tab, form feed, carriage return).
Go additionally treats a handful of non-ASCII Unicode code points as
space; rc.conf.local lines and service names are ASCII, so those are
out of the model's scope. -/
def isSpaceGo (c : Char) : Bool :=
  c == ' ' || c == '\t' || c == '\n' || c == '\x0b' || c == '\x0c' || c == '\r'

/-- Go `strings.TrimSpace`: drop leading and trailing whitespace. -/
def trimSpace (s : List Char) : List Char :=
  ((s.dropWhile isSpaceGo).reverse.dropWhile isSpaceGo).reverse

/-- Helper for `splitChar`: prepend a character onto the first chunk. -/
def consHead (c : Char) : List (List Char) → List (List Char)
  | [] => [[c]]
  | t :: ts => (c :: t) :: ts

/-- Go `strings.Split s sep` for a one-character separator `sep`:
`splitChar sep s` cuts `s` at every occurrence of `sep`.  As in Go, the
result is never empty and splitting the empty string yields `[[]]`. -/
def splitChar (sep : Char) : List Char → List (List Char)
  | [] => [[]]
  | c :: cs =>
    if c = sep then [] :: splitChar sep cs
    else consHead c (splitChar sep cs)

/-- Go `strings.Index s pat` (as a rune index; the source only inspects
whether the result is `0`, `-1` or positive, where rune and byte indices
agree in sign): first index at which `pat` occurs in `s`, `-1` if none. -/
def stringsIndex (pat : List Char) : List Char → Int
  | [] => if pat.isPrefixOf [] then 0 else -1
  | c :: cs =>
    if pat.isPrefixOf (c :: cs) then 0
    else if stringsIndex pat cs < 0 then -1 else stringsIndex pat cs + 1

/-- The fixed marker scanned for in rc.conf.local: `const pref = "pkg_scripts="`
in `modifyRCConfLocal`. -/
def prefC : List Char := "pkg_scripts=".data

/-- The scanning loop of `modifyRCConfLocal`:

    for prefIdx = -2; scn.Scan(); {
      ln = strings.TrimSpace(scn.Text())
      if ln == "" { continue }
      if prefIdx = strings.Index(ln, pref); prefIdx == 0 { break }
    }

`acc` is `prefIdx`, `ln` the last trimmed line.  The `bufio.Scanner` with
`ScanLines` yields the chunks of the content split at `'\n'` (with a final
`'\r'` stripped, which `TrimSpace` removes anyway, and without a final empty
token when the content ends in `'\n'`, which the blank-line `continue` skips
anyway), so the loop is run directly on `splitChar '\n' content`. -/
def scanLoop (pref : List Char) : List (List Char) → Int → List Char → Int × List Char
  | [], acc, ln => (acc, ln)
  | l :: ls, acc, _ln =>
    let t := trimSpace l
    if t = [] then scanLoop pref ls acc t
    else
      let i := stringsIndex pref t
      if i = 0 then (i, t) else scanLoop pref ls i t

/-- The scan of `modifyRCConfLocal` over a whole file content. -/
def scanRC (content : List Char) : Int × List Char :=
  scanLoop prefC (splitChar '\n' content) (-2) []

/-- Result of `modifyRCConfLocal`: the new file content, and whether the
call wrote to the file (`wrote = false` is the early `return` taken when
the name is already listed). -/
structure RCWrite where
  content : List Char
  wrote : Bool
deriving DecidableEq

/-- `modifyRCConfLocal` of `service_openbsd.go`, as a function from the
current content of `/etc/rc.conf.local` to its new content.

The file offset at which the code writes is modelled as the end of the
content: the `bufio.Scanner` reads the underlying file in buffered chunks,
so for any file that fits in the scanner's buffer the descriptor's offset
is at end-of-file when the loop stops, wherever the matching line was
found; `file.Seek(-1, 1)` therefore lands on the file's last character and
`file.WriteString` overwrites from there (extending the file), while the
other two branches write at end-of-file.  The scanner-error path
(`scn.Err()`, only reachable through I/O errors or over-long lines) is not
modelled. -/
def modifyRCConfLocal (name : List Char) (content : List Char) : RCWrite :=
  let r := scanRC content
  if r.1 = -2 then
    -- The file is empty: builder = pref ++ name ++ "\n", written at EOF.
    ⟨content ++ prefC ++ name ++ ['\n'], true⟩
  else if r.1 = 0 then
    -- Current line contains the desired prefix.
    let svcs := splitChar ' ' (r.2.drop prefC.length)
    if name ∈ svcs then ⟨content, false⟩
    else
      let sp : List Char := if 0 < svcs.length ∧ svcs.headD [] ≠ [] then [' '] else []
      -- builder = sp ++ name ++ "\n", written from Seek(-1, 1), i.e. over
      -- the last character of the existing content.
      ⟨content.dropLast ++ sp ++ name ++ ['\n'], true⟩
  else
    -- The file doesn't contain the desired prefix:
    -- builder = "\n" ++ pref ++ name ++ "\n", written at EOF.
    ⟨content ++ '\n' :: (prefC ++ name ++ ['\n']), true⟩

/-- The entries of the recognized `pkg_scripts=` line of a content, read
off exactly as `modifyRCConfLocal` reads them: the space-split remainder
of the first non-blank line whose trimmed text starts with the marker;
`[]` if the scan finds no such line. -/
def recognizedList (content : List Char) : List (List Char) :=
  let r := scanRC content
  if r.1 = 0 then splitChar ' ' (r.2.drop prefC.length) else []

/-- How many times `n` occurs among the recognized entries. -/
def recognizedCount (n : List Char) (content : List Char) : Nat :=
  (recognizedList content).count n

/-- Go `strings.Join sl " "` on character lists: the space-separated
concatenation of the entries. -/
def joinSp : List (List Char) → List Char
  | [] => []
  | [x] => x
  | x :: xs => x ++ ' ' :: joinSp xs

/-- A sequence of newline-terminated lines, concatenated. -/
def flatLines : List (List Char) → List Char
  | [] => []
  | p :: ps => p ++ '\n' :: flatLines ps

/-- A well-formed service name: nonempty and free of whitespace. -/
def rcName (n : List Char) : Prop :=
  n ≠ [] ∧ ∀ c ∈ n, isSpaceGo c = false

/-- A line acceptable before the `pkg_scripts=` line: free of newlines and,
once trimmed, either blank or not starting with the marker. -/
def rcPreLine (p : List Char) : Prop :=
  '\n' ∉ p ∧ (trimSpace p = [] ∨ stringsIndex prefC (trimSpace p) ≠ 0)

instance : DecidablePred rcName := fun n =>
  decidable_of_iff (n ≠ [] ∧ ∀ c ∈ n, isSpaceGo c = false) Iff.rfl

instance : DecidablePred rcPreLine := fun p =>
  decidable_of_iff ('\n' ∉ p ∧ (trimSpace p = [] ∨ stringsIndex prefC (trimSpace p) ≠ 0))
    Iff.rfl

/-- An rc.conf.local content whose recognized `pkg_scripts=` line is the
final line, newline-terminated: the lines `pls`, then the marker followed
by the space-separated entries `l`. -/
def rcFile (pls : List (List Char)) (l : List (List Char)) : List Char :=
  flatLines pls ++ prefC ++ joinSp l ++ ['\n']

/-! ## The service controller around the startup-list editor

`Install` (`service_openbsd.go`) runs `writeScript` and then
`configureSysStartup`.  The filesystem is the explicit state below; the
outcome of the `os.Stat` probe in `writeScript` is an oracle parameter,
since the Go code distinguishes exactly `os.ErrNotExist` from every other
outcome (success included). -/

/-- The outcome of `os.Stat` on the script path: success, a not-exist
error, or any other error (e.g. a permission failure). -/
inductive StatOutcome
  | ok
  | notExist
  | otherError
deriving DecidableEq

/-- The error vocabulary surfaced by the controller.  Messages and the
`errors.Annotate` wrapping (which preserves the wrapped error) are elided;
each constructor stands for one distinguishable error of the source. -/
inductive SvcErr
  | alreadyExists
  | noUserService
  | notInstalled
  | ioError
  | execFailure
deriving DecidableEq

/-- The filesystem state touched by `Install`: whether the rc.d script of
this service exists at its path, and the content of
`/etc/rc.conf.local`. -/
structure SysState where
  scriptExists : Bool
  rcConf : List Char
deriving DecidableEq

/-- The `os.Stat` outcome on the script path as the real filesystem
delivers it when no external error intervenes. -/
def statOf (st : SysState) : StatOutcome :=
  if st.scriptExists then .ok else .notExist

/-- Option-bag values: `service.KeyValue` maps names to dynamically typed
values; the source reads booleans (`getBool`), strings (`getString`) and
zero-argument functions (`getFuncSingle`, represented opaquely). -/
inductive OptVal
  | b (bv : Bool)
  | s (sv : String)
  | f
deriving DecidableEq

/-- `service.KeyValue`, as an association list. -/
def KeyValue := List (String × OptVal)

/-- Lookup in the option bag. -/
def kvGet (kv : KeyValue) (name : String) : Option OptVal :=
  (kv.find? (fun p => p.1 == name)).map (·.2)

/-- `getBool` of `service_openbsd.go`: the value under `name` if it is a
boolean, the default otherwise (absent or of another type). -/
def getBool (kv : KeyValue) (name : String) (defaultValue : Bool) : Bool :=
  match kvGet kv name with
  | some (.b v) => v
  | _ => defaultValue

/-- `getString` of `service_openbsd.go`. -/
def getString (kv : KeyValue) (name : String) (defaultValue : String) : String :=
  match kvGet kv name with
  | some (.s v) => v
  | _ => defaultValue

/-- One step of the component walk of Go `path/filepath.Clean`: `out` is
the reversed stack of kept components.  Empty and `.` components are
dropped, `..` pops a component (or is kept when the path is relative and
nothing is left to pop, or dropped at the root). -/
def cleanStep (rooted : Bool) (out : List (List Char)) (seg : List Char) : List (List Char) :=
  if seg = [] ∨ seg = ['.'] then out
  else if seg = ['.', '.'] then
    match out with
    | [] => if rooted then [] else [seg]
    | h :: t => if h = ['.', '.'] then seg :: out else t
  else seg :: out

/-- Join components with `'/'`. -/
def joinSlash : List (List Char) → List Char
  | [] => []
  | [x] => x
  | x :: xs => x ++ '/' :: joinSlash xs

/-- Go `path/filepath.Clean` (on slash-separated paths): shortest
equivalent path. -/
def pathClean (p : List Char) : List Char :=
  if p = [] then ['.']
  else
    let rooted := p.headD ' ' == '/'
    let comps := splitChar '/' p
    let out := (comps.foldl (cleanStep rooted) []).reverse
    if rooted then '/' :: joinSlash out
    else if out = [] then ['.']
    else joinSlash out

/-- Go `path/filepath.Join a b`: empty elements are skipped, the rest are
joined with `'/'` and cleaned. -/
def filepathJoin (a b : String) : String :=
  if a = "" ∧ b = "" then ""
  else if a = "" then ⟨pathClean b.data⟩
  else if b = "" then ⟨pathClean a.data⟩
  else ⟨pathClean (a.data ++ '/' :: b.data)⟩

/-- `scriptPath` of `service_openbsd.go`: rejects `UserService` requests
with `errNoUserServiceRunCom`, otherwise joins the fixed `/etc/rc.d`
directory with the service name. -/
def scriptPath (kv : KeyValue) (name : String) : Except SvcErr String :=
  if getBool kv "UserService" false then .error .noUserService
  else .ok (filepathJoin "/etc/rc.d" name)

/-- `writeScript` of `service_openbsd.go`.  The path resolution
(`execPath`), template rendering and the file create/chmod are modelled as
succeeding; the stat gate is the `stat` parameter: only `os.ErrNotExist`
lets the write proceed, every other outcome is the collision error. -/
def writeScript (kv : KeyValue) (name : String) (stat : StatOutcome) (st : SysState) :
    Option SvcErr × SysState :=
  match scriptPath kv name with
  | .error e => (some e, st)
  | .ok _ =>
    match stat with
    | .notExist => (none, { st with scriptExists := true })
    | _ => (some .alreadyExists, st)

/-- `configureSysStartup` of `service_openbsd.go`: opens (creating if
absent) `/etc/rc.conf.local` and applies `modifyRCConfLocal`; the open and
stat on that file are modelled as succeeding. -/
def configureSysStartup (name : String) (st : SysState) : Option SvcErr × SysState :=
  (none, { st with rcConf := (modifyRCConfLocal name.data st.rcConf).content })

/-- `Install` of `service_openbsd.go`: `writeScript`, then — only on its
success — `configureSysStartup`. -/
def Install (kv : KeyValue) (name : String) (stat : StatOutcome) (st : SysState) :
    Option SvcErr × SysState :=
  match writeScript kv name stat st with
  | (some e, st1) => (some e, st1)
  | (none, st1) => configureSysStartup name st1

/-- `Uninstall` of `service_openbsd.go`: resolve the script path, then
remove the script file; `removeRes` is the outcome of `os.Remove`. -/
def Uninstall (kv : KeyValue) (name : String) (removeRes : Option SvcErr) : Option SvcErr :=
  match scriptPath kv name with
  | .error e => some e
  | .ok _ => removeRes

/-- `runCom` of `service_openbsd.go`: resolve the script path, then invoke
the script; `execRes` is the outcome of `aghos.RunCommand` (captured
stdout, or the invocation error). -/
def runCom (kv : KeyValue) (name : String) (execRes : Except SvcErr String) :
    Except SvcErr String :=
  match scriptPath kv name with
  | .error e => .error e
  | .ok _ => execRes

/-- `Start` of `service_openbsd.go`: `runCom "start"`, output discarded. -/
def Start (kv : KeyValue) (name : String) (execRes : Except SvcErr String) : Option SvcErr :=
  match runCom kv name execRes with
  | .error e => some e
  | .ok _ => none

/-- `Stop` of `service_openbsd.go`: `runCom "stop"`, output discarded. -/
def Stop (kv : KeyValue) (name : String) (execRes : Except SvcErr String) : Option SvcErr :=
  match runCom kv name execRes with
  | .error e => some e
  | .ok _ => none

/-- The `service.Status` vocabulary used by `Status`. -/
inductive ServiceStatus
  | running
  | stopped
  | unknown
deriving DecidableEq

/-- `Status` of `service_openbsd.go`: `runCom "check"`, then the exact
string switch on the captured output —

    case fmt.Sprintf("%s(ok)\n", name):     StatusRunning
    case fmt.Sprintf("%s(failed)\n", name): StatusStopped
    default:                                StatusUnknown, ErrNotInstalled

and a `runCom` failure yields `(StatusUnknown, err)`. -/
def Status (kv : KeyValue) (name : String) (execRes : Except SvcErr String) :
    ServiceStatus × Option SvcErr :=
  match runCom kv name execRes with
  | .error e => (.unknown, some e)
  | .ok out =>
    if out = name ++ "(ok)\n" then (.running, none)
    else if out = name ++ "(failed)\n" then (.stopped, none)
    else (.unknown, some .notInstalled)

/-- `Restart` of `service_openbsd.go`:

    if err = s.Stop(); err != nil { return err }
    return s.Start()

`s.Stop` and `s.Start` are subprocess invocations; they are passed as
functions over an explicit world state `σ`, so that "Start is never
invoked" is visible as the world being exactly the post-Stop world. -/
def Restart {σ : Type} (stop start : σ → Option SvcErr × σ) (s0 : σ) : Option SvcErr × σ :=
  match stop s0 with
  | (some e, s1) => (some e, s1)
  | (none, s1) => start s1

/-- `Run` of `service_openbsd.go`:

    if err = s.i.Start(s); err != nil { return err }
    getFuncSingle(s.Option, optionRunWait, runWait)()
    return s.i.Stop(s)

`start` and `stop` are the daemon's callbacks and `wait` the blocking
function selected from the option bag (`RunWait` override, or the default
signal wait `runWait`), all over an explicit world state `σ`. -/
def Run {σ : Type} (start : σ → Option SvcErr × σ) (wait : σ → σ)
    (stop : σ → Option SvcErr × σ) (s0 : σ) : Option SvcErr × σ :=
  match start s0 with
  | (some e, s1) => (some e, s1)
  | (none, s1) => stop (wait s1)

/-- The `args` template function of `template()` in `service_openbsd.go`:
joins the arguments with single spaces and wraps the whole in one pair of
double quotes, producing one quoted token. -/
def argsQuote (sl : List String) : String :=
  "\"" ++ String.intercalate " " sl ++ "\""

/-- The default RunCom script `runComScript` of `service_openbsd.go`,
rendered: the template substitutes `SvcInfo`, the resolved executable
`Path` and `Arguments | args` into the fixed script text. -/
def runComScriptRender (svcInfo path : String) (arguments : List String) : String :=
  "#!/bin/sh\n#\n# $OpenBSD: " ++ svcInfo ++ "\n\ndaemon=\"" ++ path
    ++ "\"\ndaemon_flags=" ++ argsQuote arguments
    ++ "\n\n. /etc/rc.d/rc.subr\n\nrc_bg=YES\n\nrc_cmd $1\n"

/-! ## Helper lemmas on the embedded string operations -/

theorem head?_append_left {α : Type} (x y : List α) (h : x ≠ []) :
    (x ++ y).head? = x.head? := by
  cases x with
  | nil => exact absurd rfl h
  | cons a t => rfl

theorem head?_mem {α : Type} {x : List α} {c : α} (h : x.head? = some c) : c ∈ x := by
  cases x with
  | nil => simp at h
  | cons a t =>
    simp only [List.head?_cons, Option.some.injEq] at h
    exact h ▸ List.mem_cons_self a t

theorem consHead_ne_nil (c : Char) (ts : List (List Char)) : consHead c ts ≠ [] := by
  cases ts <;> simp [consHead]

theorem splitChar_ne_nil (sep : Char) (s : List Char) : splitChar sep s ≠ [] := by
  cases s with
  | nil => simp [splitChar]
  | cons c cs =>
    simp only [splitChar]
    split
    · simp
    · exact consHead_ne_nil _ _

theorem consHead_append (c : Char) (x z : List (List Char)) (h : x ≠ []) :
    consHead c (x ++ z) = consHead c x ++ z := by
  cases x with
  | nil => exact absurd rfl h
  | cons t ts => simp [consHead]

theorem splitChar_append_sep (sep : Char) (a y : List Char) :
    splitChar sep (a ++ sep :: y) = splitChar sep a ++ splitChar sep y := by
  induction a with
  | nil => simp [splitChar]
  | cons c cs ih =>
    by_cases hc : c = sep
    · simp [splitChar, hc, ih]
    · simp only [List.cons_append, splitChar, hc, if_false, List.append_eq]
      rw [ih, consHead_append c _ _ (splitChar_ne_nil sep cs)]

theorem splitChar_no_sep (sep : Char) (a : List Char) (h : ∀ c ∈ a, c ≠ sep) :
    splitChar sep a = [a] := by
  induction a with
  | nil => rfl
  | cons c cs ih =>
    have hc : c ≠ sep := h c (List.mem_cons_self c cs)
    have hcs := ih (fun d hd => h d (List.mem_cons_of_mem c hd))
    simp [splitChar, hc, hcs, consHead]

theorem dropWhile_eq_self_of_head {p : Char → Bool} {s : List Char}
    (h : ∀ c, s.head? = some c → p c = false) : s.dropWhile p = s := by
  cases s with
  | nil => rfl
  | cons c cs => simp [List.dropWhile_cons, h c rfl]

theorem trimSpace_eq_self {s : List Char}
    (h1 : ∀ c, s.head? = some c → isSpaceGo c = false)
    (h2 : ∀ c, s.reverse.head? = some c → isSpaceGo c = false) :
    trimSpace s = s := by
  unfold trimSpace
  rw [dropWhile_eq_self_of_head h1, dropWhile_eq_self_of_head h2, List.reverse_reverse]

theorem stringsIndex_ge_neg1 (pat s : List Char) : -1 ≤ stringsIndex pat s := by
  induction s with
  | nil =>
    simp only [stringsIndex]
    split <;> omega
  | cons c cs ih =>
    simp only [stringsIndex]
    split
    · omega
    · split <;> omega

theorem stringsIndex_of_pfx {pat s : List Char} (h : pat.isPrefixOf s = true) :
    stringsIndex pat s = 0 := by
  cases s <;> simp [stringsIndex, h]

theorem prefC_pfx_idx (t : List Char) : stringsIndex prefC (prefC ++ t) = 0 :=
  stringsIndex_of_pfx (List.isPrefixOf_iff_prefix.mpr (List.prefix_append prefC t))

/-! ## Lemmas about the scanning loop -/

theorem scanLoop_append_nm (pref : List Char) (ls rest : List (List Char))
    (h : ∀ l ∈ ls, trimSpace l = [] ∨ stringsIndex pref (trimSpace l) ≠ 0) :
    ∀ (acc : Int) (ln : List Char),
      scanLoop pref (ls ++ rest) acc ln
        = scanLoop pref rest (scanLoop pref ls acc ln).1 (scanLoop pref ls acc ln).2 := by
  induction ls with
  | nil => intro acc ln; rfl
  | cons l ls ih =>
    intro acc ln
    have hl := h l (List.mem_cons_self l ls)
    have htl : ∀ x ∈ ls, trimSpace x = [] ∨ stringsIndex pref (trimSpace x) ≠ 0 :=
      fun x hx => h x (List.mem_cons_of_mem l hx)
    by_cases hb : trimSpace l = []
    · simp only [List.cons_append, scanLoop, hb, if_pos rfl, if_true]
      exact ih htl acc []
    · have hidx : stringsIndex pref (trimSpace l) ≠ 0 := hl.resolve_left hb
      simp only [List.cons_append, scanLoop, hb, if_false, if_neg hidx]
      exact ih htl _ _

theorem scanLoop_allblank_fst (pref : List Char) (ls : List (List Char))
    (h : ∀ l ∈ ls, trimSpace l = []) :
    ∀ (acc : Int) (ln : List Char), (scanLoop pref ls acc ln).1 = acc := by
  induction ls with
  | nil => intro acc ln; rfl
  | cons l ls ih =>
    intro acc ln
    have hl := h l (List.mem_cons_self l ls)
    simp only [scanLoop, hl, if_pos rfl, if_true]
    exact ih (fun x hx => h x (List.mem_cons_of_mem l hx)) acc []

theorem scanLoop_nm_keep (pref : List Char) (ls : List (List Char))
    (h : ∀ l ∈ ls, trimSpace l = [] ∨ stringsIndex pref (trimSpace l) ≠ 0) :
    ∀ (acc : Int) (ln : List Char), acc ≠ 0 → -1 ≤ acc →
      (scanLoop pref ls acc ln).1 ≠ 0 ∧ -1 ≤ (scanLoop pref ls acc ln).1 := by
  induction ls with
  | nil => intro acc ln h0 hge; exact ⟨h0, hge⟩
  | cons l ls ih =>
    intro acc ln h0 hge
    have htl : ∀ x ∈ ls, trimSpace x = [] ∨ stringsIndex pref (trimSpace x) ≠ 0 :=
      fun x hx => h x (List.mem_cons_of_mem l hx)
    by_cases hb : trimSpace l = []
    · simp only [scanLoop, hb, if_pos rfl, if_true]
      exact ih htl acc [] h0 hge
    · have hidx : stringsIndex pref (trimSpace l) ≠ 0 :=
        (h l (List.mem_cons_self l ls)).resolve_left hb
      simp only [scanLoop, hb, if_false, if_neg hidx]
      exact ih htl _ _ hidx (stringsIndex_ge_neg1 pref (trimSpace l))

theorem scanLoop_nm_start (pref : List Char) (ls : List (List Char))
    (h : ∀ l ∈ ls, trimSpace l = [] ∨ stringsIndex pref (trimSpace l) ≠ 0)
    (hx : ∃ l ∈ ls, trimSpace l ≠ []) :
    ∀ ln : List Char,
      (scanLoop pref ls (-2) ln).1 ≠ 0 ∧ -1 ≤ (scanLoop pref ls (-2) ln).1 := by
  induction ls with
  | nil => exact absurd hx (by simp)
  | cons l ls ih =>
    intro ln
    have htl : ∀ x ∈ ls, trimSpace x = [] ∨ stringsIndex pref (trimSpace x) ≠ 0 :=
      fun x hx => h x (List.mem_cons_of_mem l hx)
    by_cases hb : trimSpace l = []
    · simp only [scanLoop, hb, if_pos rfl, if_true]
      rcases hx with ⟨m, hm, hmb⟩
      rcases List.mem_cons.mp hm with rfl | hmls
      · exact absurd hb hmb
      · exact ih htl ⟨m, hmls, hmb⟩ []
    · have hidx : stringsIndex pref (trimSpace l) ≠ 0 :=
        (h l (List.mem_cons_self l ls)).resolve_left hb
      simp only [scanLoop, hb, if_false, if_neg hidx]
      exact scanLoop_nm_keep pref ls htl _ _ hidx (stringsIndex_ge_neg1 pref (trimSpace l))

/-! ## Lemmas about joined entry lists and line blocks -/

theorem joinSp_ne_nil {l : List (List Char)} (h : ∀ x ∈ l, x ≠ []) (hne : l ≠ []) :
    joinSp l ≠ [] := by
  match l with
  | [] => exact absurd rfl hne
  | [x] => exact h x (List.mem_singleton.mpr rfl)
  | x :: y :: ys => simp [joinSp]

theorem mem_joinSp {c : Char} {l : List (List Char)} (h : c ∈ joinSp l) :
    c = ' ' ∨ ∃ x ∈ l, c ∈ x := by
  induction l with
  | nil => simp [joinSp] at h
  | cons x xs ih =>
    cases xs with
    | nil => exact Or.inr ⟨x, List.mem_singleton.mpr rfl, h⟩
    | cons y ys =>
      simp only [joinSp] at h
      rcases List.mem_append.mp h with hx | hr
      · exact Or.inr ⟨x, List.mem_cons_self x _, hx⟩
      · rcases List.mem_cons.mp hr with rfl | hj
        · exact Or.inl rfl
        · rcases ih hj with hsp | ⟨z, hz, hcz⟩
          · exact Or.inl hsp
          · exact Or.inr ⟨z, List.mem_cons_of_mem x hz, hcz⟩

theorem joinSp_cons_cons (x y : List Char) (ys : List (List Char)) :
    joinSp (x :: y :: ys) = x ++ ' ' :: joinSp (y :: ys) := rfl

theorem joinSp_concat {l : List (List Char)} (n : List Char) (hne : l ≠ []) :
    joinSp (l ++ [n]) = joinSp l ++ ' ' :: n := by
  induction l with
  | nil => exact absurd rfl hne
  | cons x xs ih =>
    cases xs with
    | nil => simp [joinSp]
    | cons y ys =>
      have e1 : (x :: y :: ys) ++ [n] = x :: y :: (ys ++ [n]) := rfl
      have e2 : (y :: ys) ++ [n] = y :: (ys ++ [n]) := rfl
      rw [e1, joinSp_cons_cons, ← e2, ih (by simp), joinSp_cons_cons, List.append_assoc]
      rfl

theorem splitChar_joinSp {l : List (List Char)} (hne : l ≠ [])
    (h : ∀ x ∈ l, ∀ c ∈ x, c ≠ ' ') : splitChar ' ' (joinSp l) = l := by
  induction l with
  | nil => exact absurd rfl hne
  | cons x xs ih =>
    cases xs with
    | nil => exact splitChar_no_sep ' ' x (h x (List.mem_singleton.mpr rfl))
    | cons y ys =>
      have hx := h x (List.mem_cons_self x _)
      have := splitChar_append_sep ' ' x (joinSp (y :: ys))
      simp only [joinSp]
      rw [this, splitChar_no_sep ' ' x hx,
        ih (by simp) (fun z hz => h z (List.mem_cons_of_mem x hz))]
      rfl

theorem joinSp_revhead {l : List (List Char)} (h : ∀ x ∈ l, rcName x) (hne : l ≠ []) :
    ∀ c, (joinSp l).reverse.head? = some c → isSpaceGo c = false := by
  induction l with
  | nil => exact absurd rfl hne
  | cons x xs ih =>
    cases xs with
    | nil =>
      intro c hc
      have hx := h x (List.mem_singleton.mpr rfl)
      exact hx.2 c (List.mem_reverse.mp (head?_mem hc))
    | cons y ys =>
      intro c hc
      have hys : joinSp (y :: ys) ≠ [] :=
        joinSp_ne_nil (fun z hz => (h z (List.mem_cons_of_mem x hz)).1) (by simp)
      have hrev : (joinSp (y :: ys)).reverse ≠ [] := by
        simpa [List.reverse_eq_nil_iff] using hys
      simp only [joinSp, List.reverse_append, List.reverse_cons, List.append_assoc] at hc
      rw [head?_append_left _ _ hrev] at hc
      exact ih (fun z hz => h z (List.mem_cons_of_mem x hz)) (by simp) c hc

theorem flatLines_append (a b : List (List Char)) :
    flatLines (a ++ b) = flatLines a ++ flatLines b := by
  induction a with
  | nil => rfl
  | cons p ps ih => simp [flatLines, ih]

theorem splitChar_flatLines (pls : List (List Char)) (rest : List Char)
    (h : ∀ p ∈ pls, '\n' ∉ p) :
    splitChar '\n' (flatLines pls ++ rest) = pls ++ splitChar '\n' rest := by
  induction pls with
  | nil => rfl
  | cons p ps ih =>
    have hp : ∀ c ∈ p, c ≠ '\n' := fun c hc he => h p (List.mem_cons_self p ps) (he ▸ hc)
    simp only [flatLines, List.append_assoc, List.cons_append]
    rw [splitChar_append_sep '\n' p (flatLines ps ++ rest), splitChar_no_sep '\n' p hp,
      ih (fun q hq => h q (List.mem_cons_of_mem p hq))]
    rfl

/-! ## Evaluating the scan and the edit on shaped contents -/

theorem prefC_cons : prefC = 'p' :: "kg_scripts=".data := rfl

theorem markLine_ne_nil (l : List (List Char)) : prefC ++ joinSp l ≠ [] := by
  rw [prefC_cons]
  simp

theorem markLine_no_nl {l : List (List Char)} (hl : ∀ x ∈ l, rcName x) :
    ∀ c ∈ prefC ++ joinSp l, c ≠ '\n' := by
  intro c hc he
  subst he
  rcases List.mem_append.mp hc with hp | hj
  · revert hp
    decide
  · rcases mem_joinSp hj with hsp | ⟨x, hx, hcx⟩
    · exact absurd hsp (by decide)
    · have := (hl x hx).2 '\n' hcx
      simp [isSpaceGo] at this

theorem trim_markLine {l : List (List Char)} (hl : ∀ x ∈ l, rcName x) :
    trimSpace (prefC ++ joinSp l) = prefC ++ joinSp l := by
  cases l with
  | nil =>
    show trimSpace (prefC ++ joinSp []) = prefC ++ joinSp []
    simp only [joinSp, List.append_nil]
    decide
  | cons x xs =>
    apply trimSpace_eq_self
    · intro c hc
      rw [prefC_cons, List.cons_append, List.head?_cons, Option.some.injEq] at hc
      subst hc
      decide
    · intro c hc
      rw [List.reverse_append] at hc
      have hne : joinSp (x :: xs) ≠ [] :=
        joinSp_ne_nil (fun z hz => (hl z hz).1) (by simp)
      have hrev : (joinSp (x :: xs)).reverse ≠ [] := by
        simpa [List.reverse_eq_nil_iff] using hne
      rw [head?_append_left _ _ hrev] at hc
      exact joinSp_revhead hl (by simp) c hc

theorem rcPre_nm {pls : List (List Char)} (hp : ∀ p ∈ pls, rcPreLine p) :
    ∀ p ∈ pls, trimSpace p = [] ∨ stringsIndex prefC (trimSpace p) ≠ 0 :=
  fun p hmem => (hp p hmem).2

theorem scan_rcFile (pls l : List (List Char)) (hp : ∀ p ∈ pls, rcPreLine p)
    (hl : ∀ x ∈ l, rcName x) :
    scanRC (rcFile pls l) = (0, prefC ++ joinSp l) := by
  have hlines : splitChar '\n' (rcFile pls l) = pls ++ [prefC ++ joinSp l, []] := by
    have e : rcFile pls l = flatLines pls ++ (prefC ++ (joinSp l ++ ['\n'])) := by
      unfold rcFile
      rw [List.append_assoc, List.append_assoc]
    rw [e, splitChar_flatLines pls _ (fun p hmem => (hp p hmem).1)]
    have : prefC ++ (joinSp l ++ ['\n']) = (prefC ++ joinSp l) ++ '\n' :: [] := by
      simp [List.append_assoc]
    rw [this, splitChar_append_sep '\n' (prefC ++ joinSp l) [],
      splitChar_no_sep '\n' _ (markLine_no_nl hl)]
    rfl
  unfold scanRC
  rw [hlines, scanLoop_append_nm prefC pls _ (rcPre_nm hp) (-2) []]
  have htm := trim_markLine hl
  have hne := markLine_ne_nil l
  simp only [scanLoop, htm, hne, if_false, prefC_pfx_idx (joinSp l), if_pos rfl, if_true]

/-! ## Evaluating the edit on shaped contents -/

theorem nospace_ne_space {l : List (List Char)} (hl : ∀ x ∈ l, rcName x) :
    ∀ x ∈ l, ∀ c ∈ x, c ≠ ' ' := by
  intro x hx c hc he
  have := (hl x hx).2 c hc
  subst he
  simp [isSpaceGo] at this

theorem modify_rcFile_mem (n : List Char) (pls l : List (List Char))
    (hp : ∀ p ∈ pls, rcPreLine p) (hl : ∀ x ∈ l, rcName x) (hmem : n ∈ l) :
    modifyRCConfLocal n (rcFile pls l) = ⟨rcFile pls l, false⟩ := by
  have hne : l ≠ [] := by rintro rfl; simp at hmem
  have hsvcs : splitChar ' ' ((prefC ++ joinSp l).drop prefC.length) = l := by
    rw [List.drop_left, splitChar_joinSp hne (nospace_ne_space hl)]
  simp only [modifyRCConfLocal, scan_rcFile pls l hp hl, hsvcs]
  norm_num
  exact hmem

theorem rcFile_dropLast (pls l : List (List Char)) :
    (rcFile pls l).dropLast = flatLines pls ++ prefC ++ joinSp l := by
  unfold rcFile
  exact List.dropLast_concat

theorem modify_rcFile_notmem (n : List Char) (pls l : List (List Char))
    (hn : rcName n) (hp : ∀ p ∈ pls, rcPreLine p) (hl : ∀ x ∈ l, rcName x)
    (hnm : n ∉ l) :
    modifyRCConfLocal n (rcFile pls l) = ⟨rcFile pls (l ++ [n]), true⟩ := by
  cases l with
  | nil =>
    have hsvcs : splitChar ' ' ((prefC ++ joinSp []).drop prefC.length) = [[]] := by
      rw [List.drop_left]
      rfl
    have hmem : n ∉ ([[]] : List (List Char)) := by
      simp only [List.mem_singleton]
      exact hn.1
    simp only [modifyRCConfLocal, scan_rcFile pls [] hp hl, hsvcs]
    norm_num [hmem, rcFile_dropLast]
    rw [if_neg hn.1]
    simp [rcFile, joinSp, List.append_assoc]
  | cons x xs =>
    have hne : (x :: xs : List (List Char)) ≠ [] := by simp
    have hsvcs : splitChar ' ' ((prefC ++ joinSp (x :: xs)).drop prefC.length) = x :: xs := by
      rw [List.drop_left, splitChar_joinSp hne (nospace_ne_space hl)]
    have hx : x ≠ [] := (hl x (List.mem_cons_self x xs)).1
    simp only [modifyRCConfLocal, scan_rcFile pls (x :: xs) hp hl, hsvcs]
    norm_num [hnm, hx, rcFile_dropLast]
    have hjc : flatLines pls ++ (prefC ++ (joinSp (x :: xs) ++ ' ' :: (n ++ ['\n'])))
        = rcFile pls ((x :: xs) ++ [n]) := by
      unfold rcFile
      rw [joinSp_concat n hne]
      simp [List.append_assoc]
    exact hjc

theorem modify_flat_allblank (n : List Char) (pls : List (List Char))
    (hp : ∀ p ∈ pls, rcPreLine p) (hb : ∀ p ∈ pls, trimSpace p = []) :
    modifyRCConfLocal n (flatLines pls) = ⟨rcFile pls [n], true⟩ := by
  have hlines : splitChar '\n' (flatLines pls) = pls ++ [[]] := by
    have := splitChar_flatLines pls [] (fun p hmem => (hp p hmem).1)
    simpa using this
  have hscan : (scanRC (flatLines pls)).1 = -2 := by
    unfold scanRC
    rw [hlines]
    apply scanLoop_allblank_fst
    intro l hmem
    rcases List.mem_append.mp hmem with hmem | hmem
    · exact hb l hmem
    · rw [List.mem_singleton.mp hmem]; rfl
  simp only [modifyRCConfLocal, hscan]
  norm_num
  simp [rcFile, joinSp, List.append_assoc]

theorem modify_flat_nonblank (n : List Char) (pls : List (List Char))
    (hp : ∀ p ∈ pls, rcPreLine p) (hx : ∃ p ∈ pls, trimSpace p ≠ []) :
    modifyRCConfLocal n (flatLines pls) = ⟨rcFile (pls ++ [[]]) [n], true⟩ := by
  have hlines : splitChar '\n' (flatLines pls) = pls ++ [[]] := by
    have := splitChar_flatLines pls [] (fun p hmem => (hp p hmem).1)
    simpa using this
  have hnm : ∀ l ∈ pls ++ [[]], trimSpace l = [] ∨ stringsIndex prefC (trimSpace l) ≠ 0 := by
    intro l hmem
    rcases List.mem_append.mp hmem with hmem | hmem
    · exact (hp l hmem).2
    · rw [List.mem_singleton.mp hmem]; exact Or.inl rfl
  have hxx : ∃ l ∈ pls ++ [[]], trimSpace l ≠ [] := by
    rcases hx with ⟨p, hmem, hpb⟩
    exact ⟨p, List.mem_append.mpr (Or.inl hmem), hpb⟩
  have hscan := scanLoop_nm_start prefC (pls ++ [[]]) hnm hxx []
  have h1 : (scanRC (flatLines pls)).1 ≠ 0 := by
    unfold scanRC; rw [hlines]; exact hscan.1
  have h2 : (scanRC (flatLines pls)).1 ≠ -2 := by
    unfold scanRC; rw [hlines]
    have := hscan.2
    omega
  simp only [modifyRCConfLocal, if_neg h2, if_neg h1]
  simp [rcFile, flatLines_append, flatLines, joinSp, List.append_assoc]

theorem recognizedList_rcFile (pls l : List (List Char))
    (hp : ∀ p ∈ pls, rcPreLine p) (hl : ∀ x ∈ l, rcName x) :
    recognizedList (rcFile pls l) = if l = [] then [[]] else l := by
  simp only [recognizedList, scan_rcFile pls l hp hl]
  norm_num
  cases l with
  | nil => simp [joinSp, splitChar]
  | cons x xs =>
    rw [splitChar_joinSp (by simp) (nospace_ne_space hl)]
    simp


/-! ## Claims about the startup-list editor -/

theorem rc_add_shape (n : List Char) (pls l : List (List Char)) (s : List Char)
    (hn : rcName n)
    (hp : ∀ p ∈ pls, rcPreLine p)
    (hl : ∀ x ∈ l, rcName x)
    (hcnt : l.count n ≤ 1)
    (hs : s = flatLines pls ∨ s = rcFile pls l) :
    ∃ pls' l', (∀ p ∈ pls', rcPreLine p) ∧ (∀ x ∈ l', rcName x)
      ∧ (modifyRCConfLocal n s).content = rcFile pls' l'
      ∧ l'.count n = 1 ∧ n ∈ l' := by
  rcases hs with rfl | rfl
  · by_cases hb : ∀ p ∈ pls, trimSpace p = []
    · refine ⟨pls, [n], hp, ?_, ?_, ?_, ?_⟩
      · intro x hx; rw [List.mem_singleton.mp hx]; exact hn
      · rw [modify_flat_allblank n pls hp hb]
      · simp
      · simp
    · push_neg at hb
      refine ⟨pls ++ [[]], [n], ?_, ?_, ?_, ?_, ?_⟩
      · intro p hmem
        rcases List.mem_append.mp hmem with hmem | hmem
        · exact hp p hmem
        · rw [List.mem_singleton.mp hmem]
          exact ⟨by simp, Or.inl rfl⟩
      · intro x hx; rw [List.mem_singleton.mp hx]; exact hn
      · rw [modify_flat_nonblank n pls hp hb]
      · simp
      · simp
  · by_cases hmem : n ∈ l
    · refine ⟨pls, l, hp, hl, ?_, ?_, hmem⟩
      · rw [modify_rcFile_mem n pls l hp hl hmem]
      · have h1 : 0 < l.count n := List.count_pos_iff.mpr hmem
        omega
    · refine ⟨pls, l ++ [n], hp, ?_, ?_, ?_, by simp⟩
      · intro x hx
        rcases List.mem_append.mp hx with hx | hx
        · exact hl x hx
        · rw [List.mem_singleton.mp hx]; exact hn
      · rw [modify_rcFile_notmem n pls l hn hp hl hmem]
      · rw [List.count_append]
        rw [List.count_eq_zero.mpr hmem]
        simp

/-- C1 (amended): for a whitespace-free nonempty service name `n` and a
startup-configuration file made of newline-terminated lines none of which
carries the marker — optionally followed by a final newline-terminated
`pkg_scripts=` line whose entries are whitespace-free names listing `n` at
most once — running `modifyRCConfLocal n` twice yields a file whose
recognized line lists `n` exactly once, and the second run detects `n` and
returns without writing. -/
theorem rc_add_idempotent (n : List Char) (pls l : List (List Char)) (s : List Char)
    (hn : rcName n)
    (hp : ∀ p ∈ pls, rcPreLine p)
    (hl : ∀ x ∈ l, rcName x)
    (hcnt : l.count n ≤ 1)
    (hs : s = flatLines pls ∨ s = rcFile pls l) :
    (modifyRCConfLocal n (modifyRCConfLocal n s).content).wrote = false
    ∧ (modifyRCConfLocal n (modifyRCConfLocal n s).content).content
        = (modifyRCConfLocal n s).content
    ∧ recognizedCount n (modifyRCConfLocal n s).content = 1 := by
  obtain ⟨pls', l', hp', hl', hc, hcnt1, hmem⟩ :=
    rc_add_shape n pls l s hn hp hl hcnt hs
  have hr2 := modify_rcFile_mem n pls' l' hp' hl' hmem
  have hne : l' ≠ [] := by rintro rfl; simp at hmem
  refine ⟨?_, ?_, ?_⟩
  · rw [hc, hr2]
  · rw [hc, hr2]
  · rw [recognizedCount, hc, recognizedList_rcFile pls' l' hp' hl', if_neg hne, hcnt1]

theorem rc_add_idempotent_witness :
    (modifyRCConfLocal "b".data
        (modifyRCConfLocal "b".data (rcFile ["x".data] ["a".data])).content).wrote = false
    ∧ (modifyRCConfLocal "b".data
        (modifyRCConfLocal "b".data (rcFile ["x".data] ["a".data])).content).content
        = (modifyRCConfLocal "b".data (rcFile ["x".data] ["a".data])).content
    ∧ recognizedCount "b".data
        (modifyRCConfLocal "b".data (rcFile ["x".data] ["a".data])).content = 1 :=
  rc_add_idempotent "b".data ["x".data] ["a".data] (rcFile ["x".data] ["a".data])
    (by decide) (by decide) (by decide) (by decide) (Or.inr rfl)

theorem rc_add_idempotent_cex :
    ¬ ((modifyRCConfLocal "b".data
          (modifyRCConfLocal "b".data "pkg_scripts=a\nx\n".data).content).wrote = false
       ∧ recognizedCount "b".data
          (modifyRCConfLocal "b".data
            (modifyRCConfLocal "b".data "pkg_scripts=a\nx\n".data).content).content = 1) := by
  decide

/-- C2 (amended): when the final line of the file is the newline-terminated
recognized line listing exactly `[a, b]` and `c` is a new whitespace-free
name, the edit overwrites the file's final newline with `" " ++ c ++ "\n"`,
so the file's recognized list becomes `[a, b, c]`: order preserved, nothing
else removed or duplicated. -/
theorem rc_add_order (a b c : List Char) (pls : List (List Char))
    (ha : rcName a) (hb : rcName b) (hc : rcName c) (hca : c ≠ a) (hcb : c ≠ b)
    (hp : ∀ p ∈ pls, rcPreLine p) :
    modifyRCConfLocal c (rcFile pls [a, b]) = ⟨rcFile pls [a, b, c], true⟩
    ∧ recognizedList (rcFile pls [a, b, c]) = [a, b, c] := by
  have hl : ∀ x ∈ [a, b], rcName x := by
    intro x hx
    rcases List.mem_cons.mp hx with rfl | hx
    · exact ha
    · rw [List.mem_singleton.mp hx]; exact hb
  have hl3 : ∀ x ∈ [a, b, c], rcName x := by
    intro x hx
    rcases List.mem_cons.mp hx with rfl | hx
    · exact ha
    rcases List.mem_cons.mp hx with rfl | hx
    · exact hb
    · rw [List.mem_singleton.mp hx]; exact hc
  constructor
  · have hnm : c ∉ [a, b] := by simp [hca, hcb]
    exact modify_rcFile_notmem c pls [a, b] hc hp hl hnm
  · rw [recognizedList_rcFile pls [a, b, c] hp hl3]
    simp

theorem rc_add_order_witness :
    modifyRCConfLocal "c".data (rcFile [] ["a".data, "b".data])
      = ⟨rcFile [] ["a".data, "b".data, "c".data], true⟩
    ∧ recognizedList (rcFile [] ["a".data, "b".data, "c".data])
      = ["a".data, "b".data, "c".data] :=
  rc_add_order "a".data "b".data "c".data []
    (by decide) (by decide) (by decide) (by decide) (by decide) (by decide)

theorem rc_add_order_cex :
    recognizedList (modifyRCConfLocal "c".data "pkg_scripts=a b\nx\n".data).content
      ≠ ["a".data, "b".data, "c".data] := by
  decide

/-- C7: registering a name on an empty (or freshly created) rc.conf.local
produces exactly the marker, the name and a newline, with no leading
newline or space. -/
theorem rc_bootstrap (n : List Char) :
    modifyRCConfLocal n [] = ⟨prefC ++ n ++ ['\n'], true⟩ := rfl


/-! ## Claims about the controller orchestration -/

/-- C3: with the script absent and a non-user service, a first `Install`
succeeds and creates the script; a second `Install` without an intervening
`Uninstall` (the script now exists, so the stat probe no longer reports
not-exist) fails with the already-exists collision error and returns the
state unchanged — in particular the startup-configuration file is
untouched, the registration step never being reached. -/
theorem install_collision (kv : KeyValue) (name : String) (st : SysState)
    (hus : getBool kv "UserService" false = false)
    (hsc : st.scriptExists = false) :
    (Install kv name (statOf st) st).1 = none
    ∧ (Install kv name (statOf st) st).2.scriptExists = true
    ∧ Install kv name (statOf (Install kv name (statOf st) st).2)
        (Install kv name (statOf st) st).2
      = (some SvcErr.alreadyExists, (Install kv name (statOf st) st).2) := by
  simp [Install, writeScript, configureSysStartup, scriptPath, statOf, hus, hsc]

theorem install_collision_witness :
    (Install [] "n" (statOf ⟨false, []⟩) ⟨false, []⟩).1 = none
    ∧ (Install [] "n" (statOf ⟨false, []⟩) ⟨false, []⟩).2.scriptExists = true
    ∧ Install [] "n" (statOf (Install [] "n" (statOf ⟨false, []⟩) ⟨false, []⟩).2)
        (Install [] "n" (statOf ⟨false, []⟩) ⟨false, []⟩).2
      = (some SvcErr.alreadyExists, (Install [] "n" (statOf ⟨false, []⟩) ⟨false, []⟩).2) :=
  install_collision [] "n" ⟨false, []⟩ (by decide) (by decide)

/-- C4: for a non-user service, `Status` maps the probe output exactly
`name ++ "(ok)\n"` to running with no error, exactly `name ++ "(failed)\n"`
to stopped with no error, any other output to unknown with the
not-installed error, and a failing invocation to unknown with that
error. -/
theorem status_translation (kv : KeyValue) (name out : String) (e : SvcErr)
    (hus : getBool kv "UserService" false = false) :
    Status kv name (.ok (name ++ "(ok)\n")) = (.running, none)
    ∧ Status kv name (.ok (name ++ "(failed)\n")) = (.stopped, none)
    ∧ (out ≠ name ++ "(ok)\n" → out ≠ name ++ "(failed)\n" →
        Status kv name (.ok out) = (.unknown, some .notInstalled))
    ∧ Status kv name (.error e) = (.unknown, some e) := by
  have hne : name ++ "(failed)\n" ≠ name ++ "(ok)\n" := by
    intro h
    have h2 := congrArg String.data h
    simp only [String.data_append] at h2
    have h3 := List.append_cancel_left h2
    simp at h3
  refine ⟨?_, ?_, ?_, ?_⟩
  · simp [Status, runCom, scriptPath, hus]
  · simp [Status, runCom, scriptPath, hus, hne]
  · intro h1 h2
    simp [Status, runCom, scriptPath, hus, h1, h2]
  · simp [Status, runCom, scriptPath, hus]

theorem status_translation_witness :
    Status [] "svc" (.ok ("svc" ++ "(ok)\n")) = (.running, none)
    ∧ Status [] "svc" (.ok ("svc" ++ "(failed)\n")) = (.stopped, none)
    ∧ Status [] "svc" (.ok "") = (.unknown, some .notInstalled)
    ∧ Status [] "svc" (.error .execFailure) = (.unknown, some .execFailure) := by
  obtain ⟨h1, h2, h3, h4⟩ := status_translation [] "svc" "" SvcErr.execFailure (by decide)
  exact ⟨h1, h2, h3 (by decide) (by decide), h4⟩

/-- C5: if `Stop` fails, `Restart` returns the `Stop` error unchanged and
`Start` is never invoked — the resulting world is exactly the post-`Stop`
world; only when `Stop` succeeds is `Restart` exactly `Start` run on the
post-`Stop` world. -/
theorem restart_short_circuit {σ : Type} (stop start : σ → Option SvcErr × σ) (s0 : σ) :
    (∀ e s1, stop s0 = (some e, s1) → Restart stop start s0 = (some e, s1))
    ∧ (∀ s1, stop s0 = (none, s1) → Restart stop start s0 = start s1) := by
  constructor
  · intro e s1 h
    simp [Restart, h]
  · intro s1 h
    simp [Restart, h]

theorem restart_short_circuit_witness :
    Restart (fun s => (some SvcErr.execFailure, s + 1)) (fun s => (none, s + 100)) 0
      = (some SvcErr.execFailure, 1) :=
  (restart_short_circuit (fun s => (some SvcErr.execFailure, s + 1))
    (fun s => (none, s + 100)) 0).1 SvcErr.execFailure 1 rfl

/-- C6: if the start callback fails, `Run` returns its error at once and
neither the wait function nor the stop callback runs — the world is
exactly the post-start world; if the start callback succeeds, `Run` is
exactly the stop callback applied (once) to the world the wait function
returns, and `Run` returns the stop callback's result. -/
theorem run_order {σ : Type} (start : σ → Option SvcErr × σ) (wait : σ → σ)
    (stop : σ → Option SvcErr × σ) (s0 : σ) :
    (∀ e s1, start s0 = (some e, s1) → Run start wait stop s0 = (some e, s1))
    ∧ (∀ s1, start s0 = (none, s1) → Run start wait stop s0 = stop (wait s1)) := by
  constructor
  · intro e s1 h
    simp [Run, h]
  · intro s1 h
    simp [Run, h]

theorem run_order_witness :
    Run (fun s => (none, s ++ ["start"])) (fun s => s ++ ["wait"])
      (fun s => (none, s ++ ["stop"])) ([] : List String)
      = (none, ["start", "wait", "stop"]) :=
  (run_order (fun s => (none, s ++ ["start"])) (fun s => s ++ ["wait"])
    (fun s => (none, s ++ ["stop"])) []).2 ["start"] rfl

/-- C10: the existence probe of `writeScript` treats every stat outcome
other than not-exist — success as well as any other error — as a
collision: `Install` then fails with the already-exists error and the
state, the startup list included, is untouched; only the not-exist outcome
proceeds to write the script and reach the registration step. -/
theorem stat_gate (kv : KeyValue) (name : String) (st : SysState) (stat : StatOutcome)
    (hus : getBool kv "UserService" false = false) :
    (stat ≠ .notExist → Install kv name stat st = (some .alreadyExists, st))
    ∧ (stat = .notExist →
        Install kv name stat st = configureSysStartup name { st with scriptExists := true }) := by
  constructor
  · intro h
    cases stat with
    | notExist => exact absurd rfl h
    | ok => simp [Install, writeScript, scriptPath, hus]
    | otherError => simp [Install, writeScript, scriptPath, hus]
  · intro h
    subst h
    simp [Install, writeScript, scriptPath, hus]

theorem stat_gate_witness :
    Install [] "n" .otherError ⟨false, "x\n".data⟩
      = (some SvcErr.alreadyExists, ⟨false, "x\n".data⟩) :=
  (stat_gate [] "n" ⟨false, "x\n".data⟩ .otherError (by decide)).1 (by decide)


/-! ## Claims about the script template -/

theorem splitChar_mem_tail (sep : Char) (a y : List Char) (b : List Char)
    (h : b ∈ splitChar sep y) : b ∈ splitChar sep (a ++ sep :: y) := by
  rw [splitChar_append_sep]
  exact List.mem_append_right _ h

/-- C8: the rendered script's daemon_flags value is the argument list
joined with single spaces and wrapped in one pair of quotes (one opaque
token), and the script contains the background declaration line and the
dispatch of its first positional argument to the rc framework. -/
theorem render_props (svcInfo path : String) (arguments : List String) :
    runComScriptRender svcInfo path arguments
      = ("#!/bin/sh\n#\n# $OpenBSD: " ++ svcInfo ++ "\n\ndaemon=\"" ++ path ++ "\"\n")
        ++ ("daemon_flags=\"" ++ String.intercalate " " arguments ++ "\"\n")
        ++ "\n. /etc/rc.d/rc.subr\n\nrc_bg=YES\n\nrc_cmd $1\n"
    ∧ "rc_bg=YES".data ∈ splitChar '\n' (runComScriptRender svcInfo path arguments).data
    ∧ "rc_cmd $1".data ∈ splitChar '\n' (runComScriptRender svcInfo path arguments).data := by
  have hdata : (runComScriptRender svcInfo path arguments).data
      = ("#!/bin/sh\n#\n# $OpenBSD: ".data ++ svcInfo.data ++ "\n\ndaemon=\"".data
          ++ path.data ++ "\"\ndaemon_flags=\"".data ++ (String.intercalate " " arguments).data
          ++ "\"".data) ++ '\n' :: "\n. /etc/rc.d/rc.subr\n\nrc_bg=YES\n\nrc_cmd $1\n".data := by
    simp only [runComScriptRender, argsQuote, String.data_append, List.append_assoc,
      List.cons_append]
    rfl
  refine ⟨?_, ?_, ?_⟩
  · apply String.ext
    simp only [runComScriptRender, argsQuote, String.data_append, List.append_assoc,
      List.cons_append]
    rfl
  · rw [hdata]
    apply splitChar_mem_tail
    decide
  · rw [hdata]
    apply splitChar_mem_tail
    decide


/-! ## Claims about the script path derivation -/

theorem getBool_true_iff (kv : KeyValue) :
    getBool kv "UserService" false = true ↔ kvGet kv "UserService" = some (OptVal.b true) := by
  unfold getBool
  cases h : kvGet kv "UserService" with
  | none => simp
  | some v => cases v <;> simp

theorem filepathJoin_simple (name : String) (h0 : name ≠ "") (h1 : name ≠ ".")
    (h2 : name ≠ "..") (h3 : ∀ c ∈ name.data, c ≠ '/') :
    filepathJoin "/etc/rc.d" name = "/etc/rc.d/" ++ name := by
  have hd0 : name.data ≠ [] := by
    intro h
    exact h0 (String.ext h)
  have hd1 : name.data ≠ ['.'] := by
    intro h
    exact h1 (String.ext h)
  have hd2 : name.data ≠ ['.', '.'] := by
    intro h
    exact h2 (String.ext h)
  unfold filepathJoin
  rw [if_neg (by simp [h0]), if_neg (by simp), if_neg h0]
  have hsplit : splitChar '/' ("/etc/rc.d".data ++ '/' :: name.data)
      = [[], "etc".data, "rc.d".data] ++ [name.data] := by
    rw [splitChar_append_sep, splitChar_no_sep '/' name.data h3]
    rfl
  apply String.ext
  unfold pathClean
  simp only [String.data_append, hsplit]
  rw [if_neg (by simp)]
  have hroot : (("/etc/rc.d".data ++ '/' :: name.data).headD ' ' == '/') = true := rfl
  simp only [hroot, if_true, List.foldl_append]
  have hpre : List.foldl (cleanStep true) [] [[], "etc".data, "rc.d".data]
      = ["rc.d".data, "etc".data] := rfl
  rw [hpre]
  have hstep : cleanStep true ["rc.d".data, "etc".data] name.data
      = name.data :: ["rc.d".data, "etc".data] := by
    unfold cleanStep
    rw [if_neg (not_or.mpr ⟨hd0, hd1⟩), if_neg hd2]
  simp only [List.foldl_cons, List.foldl_nil, hstep]
  rfl

/-- C9: requesting a user-scoped service (option bag mapping `UserService`
to boolean `true`) makes `scriptPath` — and with it `Install`, `Uninstall`,
`Start`, `Stop` and `Status` — fail with the distinct unsupported
configuration error; with `UserService` absent, `false` or not a boolean,
`scriptPath` succeeds with the fixed `/etc/rc.d` directory joined with the
service name (which for an ordinary name is plain concatenation). -/
theorem scriptPath_gate (kv : KeyValue) (name : String) (st : SysState)
    (stat : StatOutcome) (removeRes : Option SvcErr) (execRes : Except SvcErr String) :
    (getBool kv "UserService" false = true ↔ kvGet kv "UserService" = some (OptVal.b true))
    ∧ (getBool kv "UserService" false = true →
        scriptPath kv name = .error .noUserService
        ∧ Install kv name stat st = (some .noUserService, st)
        ∧ Uninstall kv name removeRes = some .noUserService
        ∧ Start kv name execRes = some .noUserService
        ∧ Stop kv name execRes = some .noUserService
        ∧ Status kv name execRes = (.unknown, some .noUserService))
    ∧ (getBool kv "UserService" false = false →
        scriptPath kv name = .ok (filepathJoin "/etc/rc.d" name))
    ∧ (name ≠ "" → name ≠ "." → name ≠ ".." → (∀ c ∈ name.data, c ≠ '/') →
        filepathJoin "/etc/rc.d" name = "/etc/rc.d/" ++ name) := by
  refine ⟨getBool_true_iff kv, ?_, ?_, filepathJoin_simple name⟩
  · intro h
    refine ⟨?_, ?_, ?_, ?_, ?_, ?_⟩
    · simp [scriptPath, h]
    · simp [Install, writeScript, scriptPath, h]
    · simp [Uninstall, scriptPath, h]
    · simp [Start, runCom, scriptPath, h]
    · simp [Stop, runCom, scriptPath, h]
    · simp [Status, runCom, scriptPath, h]
  · intro h
    simp [scriptPath, h]

theorem scriptPath_gate_witness :
    scriptPath [("UserService", OptVal.b true)] "adguardhome" = .error .noUserService
    ∧ Status [("UserService", OptVal.b true)] "adguardhome" (.ok "adguardhome(ok)\n")
        = (.unknown, some .noUserService)
    ∧ scriptPath [] "adguardhome" = .ok "/etc/rc.d/adguardhome" := by
  obtain ⟨-, h2, -, -⟩ :=
    scriptPath_gate [("UserService", OptVal.b true)] "adguardhome" ⟨false, []⟩
      .notExist none (.ok "adguardhome(ok)\n")
  obtain ⟨-, -, h3, h4⟩ :=
    scriptPath_gate [] "adguardhome" ⟨false, []⟩ .notExist none (.ok "")
  obtain ⟨ha, -, -, -, -, hs⟩ := h2 (by decide)
  refine ⟨ha, hs, ?_⟩
  rw [h3 (by decide), h4 (by decide) (by decide) (by decide) (by decide)]
  rfl


end OpenBSDSvc
